import Mathlib

/-!
Verification development for the OpenHay research front-end
(`frontend/src/pages/Dashboard.tsx`, `Research` component) and its URL
normalization helper (`frontend/src/lib/utils.ts`, `normalizeUrlForMatch`),
together with a model of the backend research event publisher, which is
documented but not present in the sources (it is modelled from the spec
where needed).

All JavaScript string operations are modelled over Lean `String`/`Char`
with ASCII semantics (`toLowerCase`, `trim`, `startsWith`, ...); the
payload strings appearing in the theorems below are ASCII, where the two
semantics agree.
-/

namespace OpenHay

/-- Models JavaScript `String.prototype.toLowerCase` for ASCII strings. -/
def jsToLower (s : String) : String :=
  String.mk (s.toList.map (fun c =>
    if 65 ≤ c.toNat ∧ c.toNat ≤ 90 then Char.ofNat (c.toNat + 32) else c))

/-- Models JavaScript `String.prototype.startsWith`. -/
def jsStartsWith (s pre : String) : Bool :=
  pre.toList.isPrefixOf s.toList

/-- Models JavaScript `String.prototype.endsWith`. -/
def jsEndsWith (s suf : String) : Bool :=
  suf.toList.isSuffixOf s.toList

/-- Models JavaScript `String.prototype.slice(n)` (drop the first `n` units). -/
def jsDrop (s : String) (n : Nat) : String :=
  String.mk (s.toList.drop n)

/-- Models JavaScript `String.prototype.slice(0, -1)` (drop the last unit). -/
def jsDropLast (s : String) : String :=
  String.mk s.toList.dropLast

/-- Models JavaScript `String.prototype.length` (for strings without astral
code points, where UTF-16 units coincide with code points). -/
def jsLength (s : String) : Nat :=
  s.toList.length

/-- Models JavaScript `String.prototype.trim` for ASCII whitespace. -/
def jsTrim (s : String) : String :=
  String.mk (((s.toList.dropWhile Char.isWhitespace).reverse.dropWhile
    Char.isWhitespace).reverse)

/-! ### A model of parsed URLs

The source calls the platform URL parser (`new URL(...)`).  `JsUrl` and
`parseUrl` model its behaviour on absolute hierarchical URLs of the shape
`scheme://host[:port][/path][?query][#fragment]` without credentials: the
scheme and host are lowercased by the parser, the path defaults to `/`,
and query and fragment are split off into their own fields.  An input not
of this shape fails to parse (`none`), as `new URL` throws. -/

structure JsUrl where
  protocol : String
  hostname : String
  port : String
  pathname : String
  search : String
  hash : String
  deriving DecidableEq, Repr

/-- Whether a character may appear in a URL scheme after the first letter. -/
def isSchemeChar (c : Char) : Bool :=
  c.isAlphanum || c = '+' || c = '-' || c = '.'

/-- Models `new URL` on absolute hierarchical URLs (see the section comment). -/
def parseUrl (s : String) : Option JsUrl :=
  let cs := s.toList
  let scheme := cs.takeWhile isSchemeChar
  let rest := cs.drop scheme.length
  if scheme = [] then none
  else if !(scheme.headD 'x').isAlpha then none
  else
    match rest with
    | ':' :: '/' :: '/' :: r =>
      let authority := r.takeWhile (fun c => c ≠ '/' && c ≠ '?' && c ≠ '#')
      let afterAuth := r.drop authority.length
      let host := authority.takeWhile (· ≠ ':')
      if host = [] then none
      else
        let path := afterAuth.takeWhile (fun c => c ≠ '?' && c ≠ '#')
        let afterPath := afterAuth.drop path.length
        let search := afterPath.takeWhile (· ≠ '#')
        some
          { protocol := jsToLower (String.mk scheme) ++ ":"
            hostname := jsToLower (String.mk host)
            port := String.mk (authority.drop (host.length + 1))
            pathname := if path = [] then "/" else String.mk path
            search := String.mk search
            hash := String.mk (afterPath.drop search.length) }
    | _ => none

/-! ### A model of `decodeURIComponent`

`decodeURIComponent` replaces `%XX` escapes by the corresponding bytes and
decodes the resulting byte sequence as UTF-8, throwing `URIError` (here:
`none`) on a malformed escape or invalid UTF-8. -/

/-- The value of a hexadecimal digit, upper or lower case. -/
def hexDigitVal (c : Char) : Option Nat :=
  if 48 ≤ c.toNat ∧ c.toNat ≤ 57 then some (c.toNat - 48)
  else if 97 ≤ c.toNat ∧ c.toNat ≤ 102 then some (c.toNat - 87)
  else if 65 ≤ c.toNat ∧ c.toNat ≤ 70 then some (c.toNat - 55)
  else none

/-- The UTF-8 encoding of a character, as byte values. -/
def charUtf8Bytes (c : Char) : List Nat :=
  let n := c.toNat
  if n < 128 then [n]
  else if n < 2048 then [192 + n / 64, 128 + n % 64]
  else if n < 65536 then [224 + n / 4096, 128 + (n / 64) % 64, 128 + n % 64]
  else [240 + n / 262144, 128 + (n / 4096) % 64, 128 + (n / 64) % 64, 128 + n % 64]

/-- Replaces `%XX` escapes by bytes; other characters contribute their own
UTF-8 bytes.  Fails on a truncated or non-hexadecimal escape. -/
def percentDecodeBytes : List Char → Option (List Nat)
  | [] => some []
  | '%' :: c1 :: c2 :: rest => do
    let h1 ← hexDigitVal c1
    let h2 ← hexDigitVal c2
    let bs ← percentDecodeBytes rest
    pure ((h1 * 16 + h2) :: bs)
  | '%' :: _ => none
  | c :: rest => (percentDecodeBytes rest).map (charUtf8Bytes c ++ ·)

/-- The value of a UTF-8 continuation byte, if it is one. -/
def contVal (b : Nat) : Option Nat :=
  if 128 ≤ b ∧ b < 192 then some (b - 128) else none

/-- Decodes a byte sequence as UTF-8, rejecting malformed, overlong,
surrogate and out-of-range sequences. -/
def utf8Decode : List Nat → Option (List Char)
  | [] => some []
  | b :: rest =>
    if b < 128 then (utf8Decode rest).map (fun cs => Char.ofNat b :: cs)
    else if b < 194 then none
    else if b < 224 then
      match rest with
      | c1 :: rest' => do
        let v1 ← contVal c1
        let cs ← utf8Decode rest'
        pure (Char.ofNat ((b - 192) * 64 + v1) :: cs)
      | [] => none
    else if b < 240 then
      match rest with
      | c1 :: c2 :: rest' => do
        let v1 ← contVal c1
        let v2 ← contVal c2
        let cp := (b - 224) * 4096 + v1 * 64 + v2
        if cp < 2048 ∨ (55296 ≤ cp ∧ cp < 57344) then none
        else do
          let cs ← utf8Decode rest'
          pure (Char.ofNat cp :: cs)
      | _ => none
    else if b < 245 then
      match rest with
      | c1 :: c2 :: c3 :: rest' => do
        let v1 ← contVal c1
        let v2 ← contVal c2
        let v3 ← contVal c3
        let cp := (b - 240) * 262144 + v1 * 4096 + v2 * 64 + v3
        if cp < 65536 ∨ cp > 1114111 then none
        else do
          let cs ← utf8Decode rest'
          pure (Char.ofNat cp :: cs)
      | _ => none
    else none

/-- Models JavaScript `decodeURIComponent` (throwing becomes `none`). -/
def decodeURIComponent (s : String) : Option String :=
  (percentDecodeBytes s.toList).bind (fun bs => (utf8Decode bs).map String.mk)

/-! ### `normalizeUrlForMatch` (frontend/src/lib/utils.ts) -/

/-- Transliteration of `normalizeUrlForMatch`: lowercases the host, strips a
leading `www.`, takes the pathname (defaulting to `/`), percent-decodes it
when decodable, removes a trailing slash except on the root, and rebuilds
`protocol//hostpath`; an input that does not parse is returned unchanged. -/
def normalizeUrlForMatch (urlStr : String) : String :=
  match parseUrl urlStr with
  | none => urlStr
  | some u =>
    let host := jsToLower u.hostname
    let host := if jsStartsWith host "www." then jsDrop host 4 else host
    let pathname := if u.pathname = "" then "/" else u.pathname
    let pathname :=
      match decodeURIComponent pathname with
      | some d => d
      | none => pathname
    let pathname :=
      if jsLength pathname > 1 && jsEndsWith pathname "/" then jsDropLast pathname
      else pathname
    u.protocol ++ "//" ++ host ++ pathname

/-- The normalized key exactly as claim C2 states it: scheme+host+path with
the query and fragment stripped, the trailing slash removed, and case
normalized; an input that does not parse is returned unchanged. -/
def specNormalizeUrl (urlStr : String) : String :=
  match parseUrl urlStr with
  | none => urlStr
  | some u =>
    let pathname :=
      if jsLength u.pathname > 1 && jsEndsWith u.pathname "/" then jsDropLast u.pathname
      else u.pathname
    u.protocol ++ "//" ++ jsToLower u.hostname ++ pathname

/-- Strips a leading `www.` from a host (named step of the amended claim C2). -/
def stripWww (host : String) : String :=
  if jsStartsWith host "www." then jsDrop host 4 else host

/-- Removes a trailing slash except on the root path (named step of C2). -/
def stripTrailingSlash (p : String) : String :=
  if jsLength p > 1 && jsEndsWith p "/" then jsDropLast p else p

/-- Defaults an empty path to `/` (named step of C2). -/
def orRootPath (p : String) : String :=
  if p = "" then "/" else p

/-- Percent-decodes a path when decodable, otherwise keeps it (named step of C2). -/
def decodePathOrKeep (p : String) : String :=
  match decodeURIComponent p with
  | some d => d
  | none => p

example : normalizeUrlForMatch "http://www.a.com/b/" = "http://a.com/b" := by decide
example : specNormalizeUrl "http://www.a.com/b/" = "http://www.a.com/b" := by decide
example : normalizeUrlForMatch "not a url" = "not a url" := by decide
example : normalizeUrlForMatch "HTTPS://WWW.Ex.COM/A%20b/?q=1#f" = "https://ex.com/A b" := by decide

/-! ### JSON values and JavaScript field access

The stream handlers run `JSON.parse` on each frame's data and access
fields of the result with `?.`.  `Json` models the parsed values (numbers
as integers; no handler below inspects a fractional value) and the helpers
model optional chaining and truthiness checks on fields that are strings
or absent, the only shapes these payloads take. -/

inductive Json where
  | null
  | bool (b : Bool)
  | num (n : Int)
  | str (s : String)
  | arr (elems : List Json)
  | obj (fields : List (String × Json))

/-- Models `x?.k`: the field of an object, `undefined` (`none`) otherwise. -/
def getField (j : Json) (k : String) : Option Json :=
  match j with
  | Json.obj fields => (fields.find? (fun p => p.1 == k)).map (fun p => p.2)
  | _ => none

/-- Models `x?.k1?.k2` (nested optional chaining). -/
def getField2 (j : Json) (k1 k2 : String) : Option Json :=
  (getField j k1).bind (fun x => getField x k2)

/-- Models a truthiness test (`if (x) ...`, `x || y`) on a field that is a
string or absent: `some` exactly for a non-empty string. -/
def jsTruthyString : Option Json → Option String
  | some (Json.str s) => if s = "" then none else some s
  | _ => none

/-- Models `x || ""` on a field that is a string or absent. -/
def jsStringOrEmpty : Option Json → String
  | some (Json.str s) => s
  | _ => ""

/-- Models reading a field that is stored as-is when it is a string
(`undefined`/non-string collapse to `none`). -/
def asOptStr : Option Json → Option String
  | some (Json.str s) => some s
  | _ => none

/-! ### The `Research` stream consumer (frontend/src/pages/Dashboard.tsx)

`ResearchState` holds the React state of the `Research` component that the
SSE handlers write; purely presentational state (overlay height, elapsed
timer, the per-entry accordion toggles driven by clicks rather than
events) and the random React keys / `Date.now()` timestamps of thinking
entries are outside the model.  A wire event is the frame's event name
together with the result of `JSON.parse` on its data (`none` when the
parse throws, which every handler but `lead_answer` catches; a
`lead_answer` frame with unparseable data crashes the component in the
source and is left unmodelled as a no-op, no theorem depends on it). -/

structure SearchQueryEntry where
  id : String
  query : String
  results : List Json
  openFlag : Bool

/-- JavaScript object lookup (`m[k]`), for string-keyed records. -/
def recordGet {α : Type} : List (String × α) → String → Option α
  | [], _ => none
  | (k', v') :: rest, k => if k' = k then some v' else recordGet rest k

/-- JavaScript object update (`{...m, [k]: v}`): replaces the value at an
existing key keeping its position, otherwise appends (insertion order). -/
def recordSet {α : Type} : List (String × α) → String → α → List (String × α)
  | [], k, v => [(k, v)]
  | (k', v') :: rest, k, v =>
    if k' = k then (k, v) :: rest else (k', v') :: recordSet rest k v

structure ResearchState where
  thinkingEntries : List String
  leadPlan : String
  queries : List (String × SearchQueryEntry)
  queryOrder : List String
  finalReport : String
  conversationId : Option String
  timelineVisible : Bool
  hasSubmitted : Bool
  userMessage : String
  step1Done : Bool
  step2Shown : Bool
  step3Writing : Bool
  step3Done : Bool
  showLoader : Bool
  gotFirstThinking : Bool

/-- An SSE frame after parsing: the event name and the `JSON.parse` result
of its data (`none` when parsing throws). -/
abbrev WireEvent : Type := String × Option Json

/-- The initial `useState` values of the `Research` component. -/
def initialResearchState : ResearchState :=
  { thinkingEntries := []
    leadPlan := ""
    queries := []
    queryOrder := []
    finalReport := ""
    conversationId := none
    timelineVisible := false
    hasSubmitted := false
    userMessage := ""
    step1Done := false
    step2Shown := false
    step3Writing := false
    step3Done := false
    showLoader := false
    gotFirstThinking := false }

/-- The state reset performed at the top of `handleSend` for a new run with
user message `value` (`conversationId` and `gotFirstThinking` are not reset
by the source). -/
def resetRun (s : ResearchState) (value : String) : ResearchState :=
  { s with
    thinkingEntries := []
    leadPlan := ""
    queries := []
    queryOrder := []
    finalReport := ""
    step1Done := false
    step2Shown := false
    step3Writing := false
    step3Done := false
    timelineVisible := false
    hasSubmitted := true
    userMessage := value
    showLoader := true }

/-- The `conversation_created` handler body. -/
def onConversationCreated (s : ResearchState) : Option Json → ResearchState
  | none => s
  | some j =>
    match jsTruthyString (getField j "conversation_id") with
    | some cid => { s with conversationId := some cid }
    | none => s

/-- The `lead_thinking` handler body (a non-string `thinking` field makes
`?.trim()` throw inside the handler's `try`, leaving the state unchanged). -/
def onLeadThinking (s : ResearchState) : Option Json → ResearchState
  | none => s
  | some j =>
    match getField j "thinking" with
    | some (Json.str t0) =>
      let t := jsTrim t0
      { s with
        thinkingEntries :=
          if t ≠ "" then s.thinkingEntries ++ [t] else s.thinkingEntries
        gotFirstThinking := true
        showLoader := false }
    | some Json.null => { s with gotFirstThinking := true, showLoader := false }
    | none => { s with gotFirstThinking := true, showLoader := false }
    | some _ => s

/-- The `lead_answer` handler body. -/
def onLeadAnswer (s : ResearchState) : Option Json → ResearchState
  | none => s
  | some j =>
    { s with
      leadPlan :=
        if s.leadPlan ≠ "" then s.leadPlan
        else jsStringOrEmpty (getField j "answer")
      step1Done := true
      timelineVisible := true }

/-- The `web_search_query` handler body. -/
def onWebSearchQuery (s : ResearchState) : Option Json → ResearchState
  | none => s
  | some j =>
    match jsTruthyString (getField j "id") with
    | none => s
    | some id =>
      { s with
        step2Shown := true
        queries := recordSet s.queries id
          { id := id
            query := jsStringOrEmpty (getField j "query")
            results := []
            openFlag := false }
        queryOrder :=
          if id ∈ s.queryOrder then s.queryOrder else s.queryOrder ++ [id] }

/-- The `web_search_results` handler body. -/
def onWebSearchResults (s : ResearchState) : Option Json → ResearchState
  | none => s
  | some j =>
    match jsTruthyString (getField j "id") with
    | none => s
    | some rid =>
      let newResults :=
        match getField j "results" with
        | some (Json.arr xs) => xs
        | _ => []
      match recordGet s.queries rid with
      | none => s
      | some cur =>
        { s with
          queries := recordSet s.queries rid
            { cur with results := cur.results ++ newResults } }

/-- The `final_report` handler body. -/
def onFinalReport (s : ResearchState) : Option Json → ResearchState
  | none => s
  | some j =>
    { s with
      finalReport := jsStringOrEmpty (getField j "report")
      step3Done := true }

/-- Transliteration of the SSE dispatch chain in `Research.handleSend`:
one state transition per parsed frame (branch bodies are the named handler
functions above). -/
def step (s : ResearchState) (e : WireEvent) : ResearchState :=
  if e.1 = "conversation_created" then onConversationCreated s e.2
  else if e.1 = "lead_thinking" then onLeadThinking s e.2
  else if e.1 = "lead_answer" then onLeadAnswer s e.2
  else if e.1 = "web_search_query" then onWebSearchQuery s e.2
  else if e.1 = "web_search_results" then onWebSearchResults s e.2
  else if e.1 = "subagent_completed" then { s with step3Writing := true }
  else if e.1 = "final_report" then onFinalReport s e.2
  else s

/-- Folds the handler over a list of frames, as the read loop does. -/
def processEvents (s : ResearchState) (evs : List WireEvent) : ResearchState :=
  evs.foldl step s

/-- The entries displayed under step 2, in `queryOrder` order
(`queryOrder.map((id) => queries[id]).filter(Boolean)`). -/
def queryEntries (s : ResearchState) : List SearchQueryEntry :=
  s.queryOrder.filterMap (recordGet s.queries)

/-! ### The link-metadata map for citation rendering (`linkMeta`) -/

structure LinkMetaEntry where
  url : String
  title : Option String
  description : Option String
  hostname : Option String
  favicon : Option String
  deriving DecidableEq, Repr

/-- The entry built for one search result (the body of the inner `linkMeta`
loop): title and description are taken as stored, hostname and favicon
prefer `meta_url` over `profile` fields, and a missing hostname falls back
to parsing the URL. -/
def mkMetaEntry (it : Json) (url : String) : LinkMetaEntry :=
  { url := url
    title := asOptStr (getField it "title")
    description := asOptStr (getField it "description")
    hostname :=
      (jsTruthyString (getField2 it "meta_url" "hostname") <|>
        jsTruthyString (getField2 it "profile" "long_name")) <|>
      (parseUrl url).map JsUrl.hostname
    favicon :=
      jsTruthyString (getField2 it "meta_url" "favicon") <|>
      jsTruthyString (getField2 it "profile" "img") }

/-- One iteration of the `linkMeta` loop over a single search result:
skip a result without a truthy `url`, key it by `normalizeUrlForMatch`,
and keep the map's existing entry when the key is already present. -/
def linkMetaStep (map : List (String × LinkMetaEntry)) (it : Json) :
    List (String × LinkMetaEntry) :=
  match jsTruthyString (getField it "url") with
  | none => map
  | some url =>
    let key := normalizeUrlForMatch url
    if (recordGet map key).isSome then map
    else map ++ [(key, mkMetaEntry it url)]

/-- Transliteration of the `linkMeta` memo: iterate the queries record in
insertion order (`Object.values(queries)`), then each query's results in
arrival order. -/
def linkMeta (queries : List (String × SearchQueryEntry)) :
    List (String × LinkMetaEntry) :=
  queries.foldl (fun map q => q.2.results.foldl linkMetaStep map) []

/-- All results of a queries record in the order `linkMeta` traverses them. -/
def flattenResults (queries : List (String × SearchQueryEntry)) : List Json :=
  (queries.map (fun q => q.2.results)).flatten

/-- The entry a result would contribute for `key`, when its URL normalizes
to `key`. -/
def urlKeyMeta (key : String) (it : Json) : Option LinkMetaEntry :=
  match jsTruthyString (getField it "url") with
  | some url =>
    if normalizeUrlForMatch url = key then some (mkMetaEntry it url) else none
  | none => none

/-- The entry of the first result in `l` whose URL normalizes to `key`. -/
def firstMetaForKey (l : List Json) (key : String) : Option LinkMetaEntry :=
  (l.filterMap (urlKeyMeta key)).head?

/-- All results carried by `web_search_results` frames of an event list, in
event-arrival order (the order claim C6 refers to). -/
def arrivalSources (evs : List WireEvent) : List Json :=
  evs.flatMap (fun e =>
    if e.1 = "web_search_results" then
      match e.2 with
      | some j =>
        match getField j "results" with
        | some (Json.arr xs) => xs
        | _ => []
      | none => []
    else [])

/-! ### The backend event publisher, modelled from the spec

The backend research pipeline (planner, dispatcher, workers, synthesizer,
attributor, event publisher) is documented in the repository but its code
is not among the sources; the definitions below are modelled from the
spec's component design (§4), error taxonomy (§7) and streaming contract
(§6). -/

/-- Modelled from the spec: the semantic events of one research run
(streaming contract table, §6). -/
inductive SpecEvent where
  | runCreated
  | leadThinking
  | leadAnswer
  | webSearchQuery (taskId : Nat)
  | webSearchResults (taskId : Nat)
  | subagentCompleted (taskId : Nat) (ok : Bool)
  | finalReport
  | errorEvent
  deriving DecidableEq, Repr

/-- Modelled from the spec: one planned sub-task as it matters to the event
stream — how many search calls its Worker issues and whether it succeeds. -/
structure SpecSubTask where
  searches : Nat
  ok : Bool
  deriving DecidableEq, Repr

/-- Modelled from the spec: the outcome data of one run. `plan = none` is
`PlanningFailed`; a failed synthesis is `SynthesisFailed`; a failed
attribution still succeeds (§4.5). -/
structure SpecRunInput where
  thinkingCount : Nat
  plan : Option (List SpecSubTask)
  synthesisOk : Bool
  attributionOk : Bool
  deriving DecidableEq, Repr

/-- Modelled from the spec: the progress events of the Workers for a task
list, each Worker emitting its search query/result pairs and then its
`subagent_completed` (§4.3; progress events of concurrent Workers may
interleave in any order, which the theorems below do not depend on). -/
def specWorkerEvents : List SpecSubTask → Nat → List SpecEvent
  | [], _ => []
  | t :: ts, i =>
    ((List.range t.searches).flatMap
      (fun _ => [SpecEvent.webSearchQuery i, SpecEvent.webSearchResults i])) ++
    [SpecEvent.subagentCompleted i t.ok] ++ specWorkerEvents ts (i + 1)

/-- Modelled from the spec: the full event trace of a run — `run_created`,
the planner's thinking, then either a fatal planning error, or the plan
answer, all Worker events, and a single terminal event decided by the
error taxonomy (`AllSubtasksFailed` and `SynthesisFailed` are fatal,
attribution failure is not). -/
def specRunTrace (inp : SpecRunInput) : List SpecEvent :=
  let pre :=
    SpecEvent.runCreated ::
      (List.range inp.thinkingCount).map (fun _ => SpecEvent.leadThinking)
  match inp.plan with
  | none => pre ++ [SpecEvent.errorEvent]
  | some [] => pre ++ [SpecEvent.errorEvent]
  | some (t :: ts) =>
    pre ++ [SpecEvent.leadAnswer] ++ specWorkerEvents (t :: ts) 0 ++
      (if (t :: ts).all (fun x => !x.ok) then [SpecEvent.errorEvent]
       else if !inp.synthesisOk then [SpecEvent.errorEvent]
       else [SpecEvent.finalReport])

/-- Whether a spec event is terminal (`final_report` or `error`). -/
def isTerminalSpec : SpecEvent → Bool
  | SpecEvent.finalReport => true
  | SpecEvent.errorEvent => true
  | _ => false

/-- Whether a spec event is a `subagent_completed`. -/
def isSubagentSpec : SpecEvent → Bool
  | SpecEvent.subagentCompleted _ _ => true
  | _ => false

/-- Modelled from the spec: serialization of backend events onto the wire
consumed by the frontend (payload contents are representative; the
theorems about the consumer depend only on the event names here). -/
def toWire : SpecEvent → WireEvent
  | SpecEvent.runCreated =>
    ("conversation_created", some (Json.obj [("conversation_id", Json.str "c1")]))
  | SpecEvent.leadThinking =>
    ("lead_thinking", some (Json.obj [("thinking", Json.str "t")]))
  | SpecEvent.leadAnswer =>
    ("lead_answer", some (Json.obj [("answer", Json.str "plan")]))
  | SpecEvent.webSearchQuery i =>
    ("web_search_query",
      some (Json.obj [("id", Json.str (toString i)), ("query", Json.str "q")]))
  | SpecEvent.webSearchResults i =>
    ("web_search_results",
      some (Json.obj [("id", Json.str (toString i)), ("results", Json.arr [])]))
  | SpecEvent.subagentCompleted _ _ => ("subagent_completed", none)
  | SpecEvent.finalReport =>
    ("final_report", some (Json.obj [("report", Json.str "report")]))
  | SpecEvent.errorEvent => ("error", none)

/-! ### Record (JavaScript object) lemmas -/

theorem recordGet_recordSet_self {α : Type} (m : List (String × α)) (k : String)
    (v : α) : recordGet (recordSet m k v) k = some v := by
  induction m with
  | nil => simp [recordGet, recordSet]
  | cons p rest ih =>
    obtain ⟨k', v'⟩ := p
    by_cases h : k' = k
    · simp [recordGet, recordSet, h]
    · simp [recordGet, recordSet, h, ih]

theorem recordGet_recordSet_ne {α : Type} (m : List (String × α)) (k j : String)
    (v : α) (h : j ≠ k) : recordGet (recordSet m k v) j = recordGet m j := by
  induction m with
  | nil => simp [recordGet, recordSet, Ne.symm h]
  | cons p rest ih =>
    obtain ⟨k', v'⟩ := p
    by_cases hk : k' = k
    · subst hk
      simp [recordGet, recordSet, Ne.symm h]
    · by_cases hj : k' = j <;> simp [recordGet, recordSet, hk, hj, ih, h]

theorem recordGet_append {α : Type} (a b : List (String × α)) (k : String) :
    recordGet (a ++ b) k = (recordGet a k <|> recordGet b k) := by
  induction a with
  | nil => simp [recordGet]
  | cons p rest ih =>
    obtain ⟨k', v'⟩ := p
    by_cases h : k' = k <;> simp [recordGet, h, ih]

theorem recordGet_eq_none_iff {α : Type} (m : List (String × α)) (k : String) :
    recordGet m k = none ↔ k ∉ m.map Prod.fst := by
  induction m with
  | nil => simp [recordGet]
  | cons p rest ih =>
    obtain ⟨k', v'⟩ := p
    by_cases h : k' = k
    · subst h
      simp [recordGet]
    · simp [recordGet, h, ih, Ne.symm h]

/-! ### `linkMeta` lemmas -/

theorem mkMetaEntry_url (it : Json) (url : String) :
    (mkMetaEntry it url).url = url := rfl

theorem linkMeta_eq_foldl_flattenResults (qs : List (String × SearchQueryEntry)) :
    linkMeta qs = (flattenResults qs).foldl linkMetaStep [] := by
  suffices h : ∀ (qs : List (String × SearchQueryEntry))
      (map : List (String × LinkMetaEntry)),
      qs.foldl (fun m q => q.2.results.foldl linkMetaStep m) map =
        ((qs.map (fun q => q.2.results)).flatten).foldl linkMetaStep map by
    exact h qs []
  intro qs
  induction qs with
  | nil => intro map; rfl
  | cons q rest ih =>
    intro map
    simp [List.foldl_append, ih]

theorem recordGet_foldl_linkMetaStep (l : List Json)
    (map : List (String × LinkMetaEntry)) (key : String) :
    recordGet (l.foldl linkMetaStep map) key =
      (recordGet map key <|> firstMetaForKey l key) := by
  induction l generalizing map with
  | nil =>
    cases h : recordGet map key <;> simp [firstMetaForKey, h]
  | cons it rest ih =>
    cases hu : jsTruthyString (getField it "url") with
    | none =>
      simp only [List.foldl_cons, linkMetaStep, hu]
      rw [ih]
      simp [firstMetaForKey, urlKeyMeta, hu]
    | some url =>
      by_cases hkey : normalizeUrlForMatch url = key
      · subst hkey
        cases hm : recordGet map (normalizeUrlForMatch url) with
        | some w =>
          simp only [List.foldl_cons, linkMetaStep, hu, hm, Option.isSome_some,
            if_true]
          rw [ih, hm]
          simp
        | none =>
          simp only [List.foldl_cons, linkMetaStep, hu, hm, Option.isSome_none,
            Bool.false_eq_true, if_false]
          rw [ih, recordGet_append, hm]
          simp [recordGet, firstMetaForKey, urlKeyMeta, hu]
      · cases hm : recordGet map (normalizeUrlForMatch url) with
        | some w =>
          simp only [List.foldl_cons, linkMetaStep, hu, hm, Option.isSome_some,
            if_true]
          rw [ih]
          simp [firstMetaForKey, urlKeyMeta, hu, hkey]
        | none =>
          simp only [List.foldl_cons, linkMetaStep, hu, hm, Option.isSome_none,
            Bool.false_eq_true, if_false]
          rw [ih, recordGet_append]
          have hne : ¬normalizeUrlForMatch url = key := hkey
          simp [recordGet, firstMetaForKey, urlKeyMeta, hu, hne]

theorem linkMeta_foldl_inv (l : List Json) (map : List (String × LinkMetaEntry))
    (h1 : (map.map Prod.fst).Nodup)
    (h2 : ∀ p ∈ map, p.1 = normalizeUrlForMatch p.2.url) :
    ((l.foldl linkMetaStep map).map Prod.fst).Nodup ∧
      ∀ p ∈ l.foldl linkMetaStep map, p.1 = normalizeUrlForMatch p.2.url := by
  induction l generalizing map with
  | nil => exact ⟨h1, h2⟩
  | cons it rest ih =>
    cases hu : jsTruthyString (getField it "url") with
    | none =>
      simp only [List.foldl_cons, linkMetaStep, hu]
      exact ih map h1 h2
    | some url =>
      cases hm : recordGet map (normalizeUrlForMatch url) with
      | some w =>
        simp only [List.foldl_cons, linkMetaStep, hu, hm, Option.isSome_some,
          if_true]
        exact ih map h1 h2
      | none =>
        simp only [List.foldl_cons, linkMetaStep, hu, hm, Option.isSome_none,
          Bool.false_eq_true, if_false]
        apply ih
        · have hnot : normalizeUrlForMatch url ∉ map.map Prod.fst :=
            (recordGet_eq_none_iff map _).mp hm
          simp only [List.map_append, List.map_cons, List.map_nil]
          rw [List.nodup_append]
          refine ⟨h1, List.nodup_singleton _, ?_⟩
          intro a ha hb
          simp only [List.mem_singleton] at hb
          exact hnot (hb ▸ ha)
        · intro p hp
          rcases List.mem_append.mp hp with h | h
          · exact h2 p h
          · simp only [List.mem_singleton] at h
            subst h
            rfl

/-- Claim C1: the link-metadata map is keyed by `normalizeUrlForMatch` and no
two entries share a normalized URL — for any queries record, the map has
exactly one entry for each normalized key hit by some result (and none for
other keys), and every entry's key is the normalization of its stored URL. -/
theorem linkMeta_unique_per_normalized_url
    (qs : List (String × SearchQueryEntry)) (key : String) :
    ((linkMeta qs).countP (fun p => p.1 == key) =
      if (flattenResults qs).any (fun it => (urlKeyMeta key it).isSome) then 1
      else 0) ∧
    (linkMeta qs).Forall (fun p => p.1 = normalizeUrlForMatch p.2.url) := by
  have hinv := linkMeta_foldl_inv (flattenResults qs) [] (by simp) (by simp)
  rw [← linkMeta_eq_foldl_flattenResults] at hinv
  constructor
  · have hcount : (linkMeta qs).countP (fun p => p.1 == key) =
        List.count key ((linkMeta qs).map Prod.fst) := by
      rw [List.count, List.countP_map]
      rfl
    have hmem : key ∈ (linkMeta qs).map Prod.fst ↔
        (flattenResults qs).any (fun it => (urlKeyMeta key it).isSome) = true := by
      constructor
      · intro h
        have : ¬recordGet (linkMeta qs) key = none := by
          rw [recordGet_eq_none_iff]; exact fun hc => hc h
        rw [linkMeta_eq_foldl_flattenResults, recordGet_foldl_linkMetaStep] at this
        simp only [recordGet, Option.none_orElse] at this
        have hne : (flattenResults qs).filterMap (urlKeyMeta key) ≠ [] := by
          intro hc
          simp [firstMetaForKey, hc] at this
        rw [List.any_eq_true]
        have := (List.filterMap_eq_nil_iff).not.mp hne
        push_neg at this
        obtain ⟨a, ha, hsome⟩ := this
        exact ⟨a, ha, by simp [Option.isSome_iff_ne_none, hsome]⟩
      · intro h
        rw [List.any_eq_true] at h
        obtain ⟨a, ha, hsome⟩ := h
        by_contra hc
        have : recordGet (linkMeta qs) key = none :=
          (recordGet_eq_none_iff _ _).mpr hc
        rw [linkMeta_eq_foldl_flattenResults, recordGet_foldl_linkMetaStep] at this
        simp only [recordGet, Option.none_orElse, firstMetaForKey] at this
        rw [List.head?_eq_none_iff, List.filterMap_eq_nil_iff] at this
        have := this a ha
        simp [this] at hsome
    by_cases h : (flattenResults qs).any (fun it => (urlKeyMeta key it).isSome)
    · rw [if_pos h, hcount]
      have hk : key ∈ (linkMeta qs).map Prod.fst := hmem.mpr h
      have hle := (List.nodup_iff_count_le_one.mp hinv.1) key
      have hpos := List.count_pos_iff.mpr hk
      omega
    · rw [if_neg h, hcount, List.count_eq_zero]
      intro hc
      exact h (hmem.mp hc)
  · rw [List.forall_iff_forall_mem]
    exact hinv.2

/-- Claim C6 (amended): the retained entry for each normalized URL is the
first source in `linkMeta`'s traversal order — queries in first-appearance
order of their ids, each query's results in arrival order; the map is a
pure function of the queries record, hence deterministic. -/
theorem linkMeta_first_in_traversal_order
    (qs : List (String × SearchQueryEntry)) (key : String) :
    recordGet (linkMeta qs) key = firstMetaForKey (flattenResults qs) key := by
  rw [linkMeta_eq_foldl_flattenResults, recordGet_foldl_linkMetaStep]
  simp [recordGet]

/-! ### Concrete runs used by the counterexamples -/

/-- A result citing `http://x.com` with a query string, arriving first. -/
def c6ResultB : Json :=
  Json.obj [("url", Json.str "http://x.com/?z=1"), ("title", Json.str "TB")]

/-- A result citing `http://x.com` without a query string, arriving second
but belonging to the query whose id appeared first. -/
def c6ResultA : Json :=
  Json.obj [("url", Json.str "http://x.com/"), ("title", Json.str "TA")]

/-- A run in which query `a` is announced before query `b`, but `b`'s
results arrive before `a`'s; both results share a normalized URL. -/
def c6Events : List WireEvent :=
  [("web_search_query", some (Json.obj [("id", Json.str "a"), ("query", Json.str "qa")])),
   ("web_search_query", some (Json.obj [("id", Json.str "b"), ("query", Json.str "qb")])),
   ("web_search_results", some (Json.obj [("id", Json.str "b"), ("results", Json.arr [c6ResultB])])),
   ("web_search_results", some (Json.obj [("id", Json.str "a"), ("results", Json.arr [c6ResultA])]))]

/-- The entry `linkMeta` retains in the run above. -/
def c6EntryA : LinkMetaEntry :=
  { url := "http://x.com/", title := some "TA", description := none,
    hostname := some "x.com", favicon := none }

/-- The entry of the first source in event-arrival order in the run above. -/
def c6EntryB : LinkMetaEntry :=
  { url := "http://x.com/?z=1", title := some "TB", description := none,
    hostname := some "x.com", favicon := none }

/-- Claim C6 counterexample: after the run `c6Events`, the retained entry
for the shared normalized URL comes from query `a`'s result (query
insertion order), not from the first source encountered in event-arrival
order, which was query `b`'s result — so "the first source encountered (in
event-arrival order) provides the retained entry" fails. -/
theorem linkMeta_arrival_order_counterexample :
    recordGet
        (linkMeta (processEvents (resetRun initialResearchState "q") c6Events).queries)
        "http://x.com/" = some c6EntryA ∧
      firstMetaForKey (arrivalSources c6Events) "http://x.com/" = some c6EntryB ∧
      c6EntryA ≠ c6EntryB := by
  refine ⟨by decide, by decide, by decide⟩

/-- Claim C2 counterexample: on `http://www.a.com/b/` the code's normalized
key strips the leading `www.` from the host, so it differs from the key
the claim describes (scheme+host+path, query/fragment stripped, trailing
slash removed, case normalized). -/
theorem normalizeUrlForMatch_claim_counterexample :
    normalizeUrlForMatch "http://www.a.com/b/" = "http://a.com/b" ∧
      specNormalizeUrl "http://www.a.com/b/" = "http://www.a.com/b" ∧
      normalizeUrlForMatch "http://www.a.com/b/" ≠
        specNormalizeUrl "http://www.a.com/b/" := by
  refine ⟨by decide, by decide, by decide⟩

/-- Claim C2 (amended): for every parsed URL the key is scheme+host+path
with query and fragment stripped, where the host is lowercased and a
leading `www.` is removed, the path defaults to `/`, is percent-decoded
when decodable, and loses a trailing slash except on the root; an input
that does not parse is returned unchanged. -/
theorem normalizeUrlForMatch_characterization (s : String) :
    (∀ u, parseUrl s = some u →
      normalizeUrlForMatch s =
        u.protocol ++ "//" ++ stripWww (jsToLower u.hostname) ++
          stripTrailingSlash (decodePathOrKeep (orRootPath u.pathname))) ∧
    (parseUrl s = none → normalizeUrlForMatch s = s) := by
  constructor
  · intro u h
    simp only [normalizeUrlForMatch, h, stripWww, stripTrailingSlash,
      decodePathOrKeep, orRootPath]
  · intro h
    simp only [normalizeUrlForMatch, h]

/-- Witness for the amended claim C2 at a concrete URL. -/
theorem normalizeUrlForMatch_characterization_witness :
    parseUrl "http://www.a.com/b/" =
        some { protocol := "http:", hostname := "www.a.com", port := "",
               pathname := "/b/", search := "", hash := "" } ∧
      normalizeUrlForMatch "http://www.a.com/b/" =
        "http:" ++ "//" ++ stripWww (jsToLower "www.a.com") ++
          stripTrailingSlash (decodePathOrKeep (orRootPath "/b/")) :=
  ⟨by decide,
    (normalizeUrlForMatch_characterization "http://www.a.com/b/").1
      { protocol := "http:", hostname := "www.a.com", port := "",
        pathname := "/b/", search := "", hash := "" } (by decide)⟩

/-! ### Claims about the `final_report` and `web_search_query` payload keys -/

/-- The `final_report` frame shaped as claim C3 describes its payload:
the report text under `report_text` plus a bibliography list. -/
def c3SpecShapedEvent : WireEvent :=
  ("final_report",
    some (Json.obj
      [("report_text", Json.str "R"),
       ("bibliography", Json.arr
         [Json.obj [("ordinal", Json.num 1), ("url", Json.str "http://x.com/"),
                    ("title", Json.str "T")]])]))

/-- Claim C3 counterexample: the consumer reads the key `report`, so a
`final_report` payload carrying the text under `report_text` leaves the
displayed report empty instead of showing `R`. -/
theorem finalReport_reportText_counterexample :
    (step (resetRun initialResearchState "v") c3SpecShapedEvent).finalReport = "" ∧
      (step (resetRun initialResearchState "v") c3SpecShapedEvent).finalReport ≠ "R" := by
  refine ⟨by decide, by decide⟩

/-- Claim C3 (amended): the `final_report` payload carries the report text
under the key `report`; the consumer sets the displayed report text from
that key and marks the run done, reading nothing else from the payload
(any extra fields, e.g. a bibliography, are ignored). -/
theorem finalReport_sets_report_field (s : ResearchState) (r : String)
    (extra : List (String × Json)) :
    step s ("final_report", some (Json.obj (("report", Json.str r) :: extra))) =
      { s with finalReport := r, step3Done := true } := rfl

/-- A `web_search_query` frame carrying the identifier under `id`. -/
def mkQueryEvent (id q : String) : WireEvent :=
  ("web_search_query", some (Json.obj [("id", Json.str id), ("query", Json.str q)]))

/-- A `web_search_results` frame carrying the identifier under `id`. -/
def mkResultsEvent (id : String) (rs : List Json) : WireEvent :=
  ("web_search_results", some (Json.obj [("id", Json.str id), ("results", Json.arr rs)]))

/-- A query/results pair keyed by `task_id`, as claim C4 names the field. -/
def c4Events : List WireEvent :=
  [("web_search_query", some (Json.obj [("task_id", Json.str "t1"), ("query", Json.str "q")])),
   ("web_search_results", some (Json.obj [("task_id", Json.str "t1"),
     ("results", Json.arr [Json.obj [("url", Json.str "http://x.com/")]])]))]

/-- Claim C4 counterexample: the consumer keys search events on `id`, so a
query/results pair carrying the identifier under `task_id` is dropped
entirely — no query entry is created and nothing is associated. -/
theorem webSearch_taskId_counterexample :
    (processEvents (resetRun initialResearchState "v") c4Events).queries = [] ∧
      (processEvents (resetRun initialResearchState "v") c4Events).queryOrder = [] :=
  ⟨rfl, rfl⟩

/-- Effect of a `web_search_query` frame with a non-empty id. -/
theorem step_query_event (s : ResearchState) (id q : String) (h : id ≠ "") :
    step s (mkQueryEvent id q) =
      { s with
        step2Shown := true
        queries := recordSet s.queries id
          { id := id, query := q, results := [], openFlag := false }
        queryOrder :=
          if id ∈ s.queryOrder then s.queryOrder else s.queryOrder ++ [id] } := by
  have hid : jsTruthyString (getField (Json.obj
      [("id", Json.str id), ("query", Json.str q)]) "id") = some id := by
    simp [getField, jsTruthyString, h]
  simp only [step, mkQueryEvent, onWebSearchQuery, hid]
  rfl

/-- Effect of a `web_search_results` frame with a non-empty id. -/
theorem step_results_event (s : ResearchState) (id : String) (rs : List Json)
    (h : id ≠ "") :
    step s (mkResultsEvent id rs) =
      match recordGet s.queries id with
      | none => s
      | some cur =>
        { s with queries := recordSet s.queries id { cur with results := cur.results ++ rs } } := by
  have hid : jsTruthyString (getField (Json.obj
      [("id", Json.str id), ("results", Json.arr rs)]) "id") = some id := by
    simp [getField, jsTruthyString, h]
  simp only [step, mkResultsEvent, onWebSearchResults, hid]
  rfl

/-- Claim C4 (amended): search events carry their identifier under `id`
(the tool-call id), and the consumer associates a results frame to its
query through that field — after a query frame and a results frame with
the same non-empty id, that id's entry holds the query and the results. -/
theorem webSearch_id_association (s : ResearchState) (id q : String)
    (rs : List Json) (h : id ≠ "") :
    recordGet (processEvents s [mkQueryEvent id q, mkResultsEvent id rs]).queries
        id =
      some { id := id, query := q, results := rs, openFlag := false } := by
  show recordGet (step (step s (mkQueryEvent id q)) (mkResultsEvent id rs)).queries
      id = _
  rw [step_query_event s id q h, step_results_event _ id rs h]
  simp only [recordGet_recordSet_self]
  simp

/-- Witness for the amended claim C4 at concrete inputs. -/
theorem webSearch_id_association_witness :
    recordGet (processEvents initialResearchState
        [mkQueryEvent "call1" "weather",
         mkResultsEvent "call1" [Json.obj [("url", Json.str "http://y.com/")]]]).queries
        "call1" =
      some { id := "call1", query := "weather",
             results := [Json.obj [("url", Json.str "http://y.com/")]],
             openFlag := false } :=
  webSearch_id_association initialResearchState "call1" "weather"
    [Json.obj [("url", Json.str "http://y.com/")]] (by decide)

/-! ### Claim C5: a single terminal event, emitted last -/

theorem workerEvents_not_terminal (ts : List SpecSubTask) (i : Nat) :
    ∀ e ∈ specWorkerEvents ts i, isTerminalSpec e = false := by
  induction ts generalizing i with
  | nil => intro e he; simp [specWorkerEvents] at he
  | cons t ts ih =>
    intro e he
    simp only [specWorkerEvents, List.append_assoc, List.mem_append] at he
    rcases he with he | he | he
    · rw [List.mem_flatMap] at he
      obtain ⟨n, _, he⟩ := he
      have he' : e = SpecEvent.webSearchQuery i ∨ e = SpecEvent.webSearchResults i := by
        simpa using he
      rcases he' with rfl | rfl <;> rfl
    · simp only [List.mem_singleton] at he
      rw [he]; rfl
    · exact ih (i + 1) e he

/-- Count and position of terminal events in a trace of the form
`non-terminal events ++ [terminal]`. -/
theorem countP_terminal_concat (l : List SpecEvent) (t : SpecEvent)
    (hl : ∀ e ∈ l, isTerminalSpec e = false) (ht : isTerminalSpec t = true) :
    (l ++ [t]).countP isTerminalSpec = 1 ∧
      ∃ e, (l ++ [t]).getLast? = some e ∧ isTerminalSpec e = true := by
  refine ⟨?_, t, List.getLast?_concat l, ht⟩
  rw [List.countP_append, List.countP_eq_zero.mpr (by intro e he; simp [hl e he])]
  simp [List.countP_cons, ht]

/-- Claim C5: every run trace of the modelled event publisher contains
exactly one terminal event (`final_report` or `error`), and that event is
the last event of the trace. -/
theorem specRunTrace_single_terminal (inp : SpecRunInput) :
    (specRunTrace inp).countP isTerminalSpec = 1 ∧
      ∃ e, (specRunTrace inp).getLast? = some e ∧ isTerminalSpec e = true := by
  obtain ⟨tc, plan, synth, attrib⟩ := inp
  have hpre : ∀ e ∈ SpecEvent.runCreated ::
      (List.range tc).map (fun _ => SpecEvent.leadThinking),
      isTerminalSpec e = false := by
    intro e he
    rcases List.mem_cons.mp he with he | he
    · rw [he]; rfl
    · rw [List.mem_map] at he
      obtain ⟨_, _, he⟩ := he
      rw [← he]; rfl
  cases plan with
  | none => exact countP_terminal_concat _ _ hpre rfl
  | some tasks =>
    cases tasks with
    | nil => exact countP_terminal_concat _ _ hpre rfl
    | cons t ts =>
      have hfront : ∀ e ∈ (SpecEvent.runCreated ::
          (List.range tc).map (fun _ => SpecEvent.leadThinking)) ++
          [SpecEvent.leadAnswer] ++ specWorkerEvents (t :: ts) 0,
          isTerminalSpec e = false := by
        intro e he
        simp only [List.append_assoc, List.mem_append] at he
        rcases he with he | he | he
        · exact hpre e he
        · simp only [List.mem_singleton] at he
          rw [he]; rfl
        · exact workerEvents_not_terminal (t :: ts) 0 e he
      by_cases hAll : (t :: ts).all (fun x => !x.ok)
      · have hdef : specRunTrace ⟨tc, some (t :: ts), synth, attrib⟩ =
            ((SpecEvent.runCreated ::
              (List.range tc).map (fun _ => SpecEvent.leadThinking)) ++
              [SpecEvent.leadAnswer] ++ specWorkerEvents (t :: ts) 0) ++
              [SpecEvent.errorEvent] := by
          simp [specRunTrace, hAll, List.append_assoc]
        rw [hdef]
        exact countP_terminal_concat _ _ hfront rfl
      · by_cases hSyn : synth = true
        · have hdef : specRunTrace ⟨tc, some (t :: ts), synth, attrib⟩ =
              ((SpecEvent.runCreated ::
                (List.range tc).map (fun _ => SpecEvent.leadThinking)) ++
                [SpecEvent.leadAnswer] ++ specWorkerEvents (t :: ts) 0) ++
                [SpecEvent.finalReport] := by
            simp [specRunTrace, hAll, hSyn, List.append_assoc]
          rw [hdef]
          exact countP_terminal_concat _ _ hfront rfl
        · have hSyn' : synth = false := by
            cases synth
            · rfl
            · exact absurd rfl hSyn
          have hdef : specRunTrace ⟨tc, some (t :: ts), synth, attrib⟩ =
              ((SpecEvent.runCreated ::
                (List.range tc).map (fun _ => SpecEvent.leadThinking)) ++
                [SpecEvent.leadAnswer] ++ specWorkerEvents (t :: ts) 0) ++
                [SpecEvent.errorEvent] := by
            simp [specRunTrace, hAll, hSyn', List.append_assoc]
          rw [hdef]
          exact countP_terminal_concat _ _ hfront rfl

/-! ### Claim C7: cancellation before any `subagent_completed` -/

theorem isPrefix_append_cases {α : Type} (p x y : List α) (h : p <+: x ++ y) :
    p <+: x ∨ ∃ q, p = x ++ q ∧ q <+: y := by
  induction x generalizing p with
  | nil => exact Or.inr ⟨p, rfl, h⟩
  | cons a x ih =>
    cases p with
    | nil => exact Or.inl ⟨a :: x, rfl⟩
    | cons b p =>
      rw [List.cons_append] at h
      obtain ⟨rfl, h2⟩ := List.cons_prefix_cons.mp h
      rcases ih p h2 with h3 | ⟨q, rfl, hq⟩
      · obtain ⟨r, hr⟩ := h3
        exact Or.inl ⟨r, by rw [List.cons_append, hr]⟩
      · exact Or.inr ⟨q, by rw [List.cons_append], hq⟩

theorem no_final_in_prefix_append (x y : List SpecEvent)
    (hx : ∀ e ∈ x, e ≠ SpecEvent.finalReport)
    (hy : ∀ q, q <+: y → (∀ e ∈ q, isSubagentSpec e = false) →
      SpecEvent.finalReport ∉ q) :
    ∀ p, p <+: x ++ y → (∀ e ∈ p, isSubagentSpec e = false) →
      SpecEvent.finalReport ∉ p := by
  intro p hp hsub hmem
  rcases isPrefix_append_cases p x y hp with h | ⟨q, rfl, hq⟩
  · exact hx _ (h.subset hmem) rfl
  · rcases List.mem_append.mp hmem with hm | hm
    · exact hx _ hm rfl
    · exact hy q hq (fun e he => hsub e (List.mem_append.mpr (Or.inr he))) hm

theorem no_final_in_prefix_sub_headed (i : Nat) (ok : Bool)
    (rest : List SpecEvent) :
    ∀ q, q <+: (SpecEvent.subagentCompleted i ok :: rest) →
      (∀ e ∈ q, isSubagentSpec e = false) → SpecEvent.finalReport ∉ q := by
  intro q hq hsub hmem
  cases q with
  | nil => simp at hmem
  | cons a q' =>
    obtain ⟨rfl, _⟩ := List.cons_prefix_cons.mp hq
    have := hsub _ (List.mem_cons_self _ _)
    simp [isSubagentSpec] at this

/-- Decomposition of a successful-planning trace at the first Worker's
`subagent_completed` event. -/
theorem specRunTrace_decomp (tc : Nat) (t : SpecSubTask) (ts : List SpecSubTask)
    (synth attrib : Bool) :
    specRunTrace ⟨tc, some (t :: ts), synth, attrib⟩ =
      ((SpecEvent.runCreated ::
        (List.range tc).map (fun _ => SpecEvent.leadThinking)) ++
        [SpecEvent.leadAnswer] ++
        (List.range t.searches).flatMap
          (fun _ => [SpecEvent.webSearchQuery 0, SpecEvent.webSearchResults 0])) ++
      (SpecEvent.subagentCompleted 0 t.ok ::
        (specWorkerEvents ts 1 ++
          (if (t :: ts).all (fun x => !x.ok) then [SpecEvent.errorEvent]
           else if !synth then [SpecEvent.errorEvent]
           else [SpecEvent.finalReport]))) := by
  simp [specRunTrace, specWorkerEvents, List.append_assoc]

/-- In the modelled backend trace, a prefix processed before any
`subagent_completed` contains no `final_report`. -/
theorem specTrace_no_final_before_subagent (inp : SpecRunInput)
    (p : List SpecEvent) (hp : p <+: specRunTrace inp)
    (hsub : ∀ e ∈ p, isSubagentSpec e = false) :
    SpecEvent.finalReport ∉ p := by
  obtain ⟨tc, plan, synth, attrib⟩ := inp
  cases plan with
  | none =>
    intro hmem
    have hm := hp.subset hmem
    simp [specRunTrace] at hm
  | some tasks =>
    cases tasks with
    | nil =>
      intro hmem
      have hm := hp.subset hmem
      simp [specRunTrace] at hm
    | cons t ts =>
      rw [specRunTrace_decomp] at hp
      refine no_final_in_prefix_append _ _ ?_
        (no_final_in_prefix_sub_headed 0 t.ok _) p hp hsub
      intro e he hc
      subst hc
      simp [List.mem_flatMap] at he

/-- All handlers except `final_report` leave `finalReport` and `step3Done`
unchanged; all handlers except `web_search_query` leave `queryOrder`
unchanged (stated per handler, combined below). -/
theorem onConversationCreated_frame (s : ResearchState) (data : Option Json) :
    (onConversationCreated s data).finalReport = s.finalReport ∧
      (onConversationCreated s data).step3Done = s.step3Done ∧
      (onConversationCreated s data).queryOrder = s.queryOrder := by
  cases data with
  | none => exact ⟨rfl, rfl, rfl⟩
  | some j =>
    simp only [onConversationCreated]
    cases jsTruthyString (getField j "conversation_id") <;> exact ⟨rfl, rfl, rfl⟩

theorem onLeadThinking_frame (s : ResearchState) (data : Option Json) :
    (onLeadThinking s data).finalReport = s.finalReport ∧
      (onLeadThinking s data).step3Done = s.step3Done ∧
      (onLeadThinking s data).queryOrder = s.queryOrder := by
  cases data with
  | none => exact ⟨rfl, rfl, rfl⟩
  | some j =>
    simp only [onLeadThinking]
    cases getField j "thinking" with
    | none => exact ⟨rfl, rfl, rfl⟩
    | some v => cases v <;> exact ⟨rfl, rfl, rfl⟩

theorem onLeadAnswer_frame (s : ResearchState) (data : Option Json) :
    (onLeadAnswer s data).finalReport = s.finalReport ∧
      (onLeadAnswer s data).step3Done = s.step3Done ∧
      (onLeadAnswer s data).queryOrder = s.queryOrder := by
  cases data with
  | none => exact ⟨rfl, rfl, rfl⟩
  | some j => exact ⟨rfl, rfl, rfl⟩

/-- The id carried by a `web_search_query` payload, when truthy. -/
def payloadQueryId : Option Json → Option String
  | some j => jsTruthyString (getField j "id")
  | none => none

theorem onWebSearchQuery_frame (s : ResearchState) (data : Option Json) :
    (onWebSearchQuery s data).finalReport = s.finalReport ∧
      (onWebSearchQuery s data).step3Done = s.step3Done ∧
      (onWebSearchQuery s data).queryOrder =
        (match payloadQueryId data with
         | some id =>
           if id ∈ s.queryOrder then s.queryOrder else s.queryOrder ++ [id]
         | none => s.queryOrder) := by
  cases data with
  | none => exact ⟨rfl, rfl, rfl⟩
  | some j =>
    simp only [onWebSearchQuery, payloadQueryId]
    cases jsTruthyString (getField j "id") <;> exact ⟨rfl, rfl, rfl⟩

theorem onWebSearchResults_frame (s : ResearchState) (data : Option Json) :
    (onWebSearchResults s data).finalReport = s.finalReport ∧
      (onWebSearchResults s data).step3Done = s.step3Done ∧
      (onWebSearchResults s data).queryOrder = s.queryOrder := by
  cases data with
  | none => exact ⟨rfl, rfl, rfl⟩
  | some j =>
    simp only [onWebSearchResults]
    split
    · exact ⟨rfl, rfl, rfl⟩
    · split
      · exact ⟨rfl, rfl, rfl⟩
      · exact ⟨rfl, rfl, rfl⟩

theorem onFinalReport_queryOrder (s : ResearchState) (data : Option Json) :
    (onFinalReport s data).queryOrder = s.queryOrder := by
  cases data with
  | none => rfl
  | some j => rfl

/-- Preservation of the final-report state by every non-`final_report`
frame. -/
theorem step_preserves_final (s : ResearchState) (name : String)
    (data : Option Json) (h : name ≠ "final_report") :
    (step s (name, data)).finalReport = s.finalReport ∧
      (step s (name, data)).step3Done = s.step3Done := by
  simp only [step]
  by_cases h1 : name = "conversation_created"
  · rw [if_pos h1]
    exact ⟨(onConversationCreated_frame s data).1,
      (onConversationCreated_frame s data).2.1⟩
  · rw [if_neg h1]
    by_cases h2 : name = "lead_thinking"
    · rw [if_pos h2]
      exact ⟨(onLeadThinking_frame s data).1, (onLeadThinking_frame s data).2.1⟩
    · rw [if_neg h2]
      by_cases h3 : name = "lead_answer"
      · rw [if_pos h3]
        exact ⟨(onLeadAnswer_frame s data).1, (onLeadAnswer_frame s data).2.1⟩
      · rw [if_neg h3]
        by_cases h4 : name = "web_search_query"
        · rw [if_pos h4]
          exact ⟨(onWebSearchQuery_frame s data).1,
            (onWebSearchQuery_frame s data).2.1⟩
        · rw [if_neg h4]
          by_cases h5 : name = "web_search_results"
          · rw [if_pos h5]
            exact ⟨(onWebSearchResults_frame s data).1,
              (onWebSearchResults_frame s data).2.1⟩
          · rw [if_neg h5]
            by_cases h6 : name = "subagent_completed"
            · rw [if_pos h6]
              exact ⟨rfl, rfl⟩
            · rw [if_neg h6, if_neg h]
              exact ⟨rfl, rfl⟩

theorem foldl_step_no_final (evs : List WireEvent) (s : ResearchState)
    (h : ∀ e ∈ evs, e.1 ≠ "final_report") :
    (evs.foldl step s).finalReport = s.finalReport ∧
      (evs.foldl step s).step3Done = s.step3Done := by
  induction evs generalizing s with
  | nil => exact ⟨rfl, rfl⟩
  | cons e evs ih =>
    obtain ⟨name, data⟩ := e
    have h1 := step_preserves_final s name data (h _ (List.mem_cons_self _ _))
    have h2 := ih (step s (name, data)) (fun x hx => h x (List.mem_cons_of_mem _ hx))
    exact ⟨h2.1.trans h1.1, h2.2.trans h1.2⟩

/-- Claim C7: if a run is cancelled after `lead_answer` was processed but
before any `subagent_completed` — the processed events form a prefix of
the (spec-modelled) backend trace containing `lead_answer` and no
`subagent_completed` — then no `final_report` is processed: the displayed
report stays empty and the success flag stays off. -/
theorem cancelled_before_subagent_no_final (inp : SpecRunInput)
    (p : List SpecEvent) (v : String) (s : ResearchState)
    (hp : p <+: specRunTrace inp)
    (hsub : ∀ e ∈ p, isSubagentSpec e = false)
    (_hlead : SpecEvent.leadAnswer ∈ p) :
    ((p.map toWire).foldl step (resetRun s v)).finalReport = "" ∧
      ((p.map toWire).foldl step (resetRun s v)).step3Done = false := by
  have hnf : SpecEvent.finalReport ∉ p :=
    specTrace_no_final_before_subagent inp p hp hsub
  have hw : ∀ e ∈ p.map toWire, e.1 ≠ "final_report" := by
    intro e he
    rw [List.mem_map] at he
    obtain ⟨a, ha, rfl⟩ := he
    cases a with
    | finalReport => exact absurd ha hnf
    | runCreated => decide
    | leadThinking => decide
    | leadAnswer => decide
    | webSearchQuery i => simp only [toWire]; decide
    | webSearchResults i => simp only [toWire]; decide
    | subagentCompleted i ok => simp only [toWire]; decide
    | errorEvent => decide
  have hfold := foldl_step_no_final (p.map toWire) (resetRun s v) hw
  exact ⟨by rw [hfold.1]; rfl, by rw [hfold.2]; rfl⟩

/-- The run input used by the C7 witness: one sub-task, all stages succeed. -/
def c7Input : SpecRunInput :=
  { thinkingCount := 0, plan := some [{ searches := 1, ok := true }],
    synthesisOk := true, attributionOk := true }

/-- Witness for claim C7: cancelling right after `lead_answer` in a
successful-plan run leaves the report state empty. -/
theorem cancelled_before_subagent_no_final_witness :
    (([SpecEvent.runCreated, SpecEvent.leadAnswer].map toWire).foldl step
        (resetRun initialResearchState "go")).finalReport = "" ∧
      (([SpecEvent.runCreated, SpecEvent.leadAnswer].map toWire).foldl step
        (resetRun initialResearchState "go")).step3Done = false :=
  cancelled_before_subagent_no_final c7Input
    [SpecEvent.runCreated, SpecEvent.leadAnswer] "go" initialResearchState
    ⟨[SpecEvent.webSearchQuery 0, SpecEvent.webSearchResults 0,
      SpecEvent.subagentCompleted 0 true, SpecEvent.finalReport], by decide⟩
    (by decide) (by decide)

/-! ### Claim C8: frame conditions of the `web_search_results` handler -/

/-- Claim C8: a `web_search_results` frame whose id is unknown leaves the
state completely unchanged; for a known id, exactly that entry's results
are extended, every other entry, and the query order, are untouched. -/
theorem webSearchResults_frame (s : ResearchState) (id : String)
    (rs : List Json) :
    (recordGet s.queries id = none → step s (mkResultsEvent id rs) = s) ∧
      (∀ cur, id ≠ "" → recordGet s.queries id = some cur →
        step s (mkResultsEvent id rs) =
          { s with queries := recordSet s.queries id { cur with results := cur.results ++ rs } } ∧
        recordGet (step s (mkResultsEvent id rs)).queries id =
          some { cur with results := cur.results ++ rs } ∧
        (∀ j, j ≠ id →
          recordGet (step s (mkResultsEvent id rs)).queries j =
            recordGet s.queries j) ∧
        (step s (mkResultsEvent id rs)).queryOrder = s.queryOrder) := by
  constructor
  · intro h
    by_cases hid : id = ""
    · subst hid
      rfl
    · rw [step_results_event s id rs hid, h]
  · intro cur hid h
    rw [step_results_event s id rs hid, h]
    refine ⟨rfl, ?_, ?_, rfl⟩
    · exact recordGet_recordSet_self s.queries id _
    · intro j hj
      exact recordGet_recordSet_ne s.queries id j _ hj

/-- The concrete state used by the C8 witness: one known query `a`. -/
def c8State : ResearchState :=
  { initialResearchState with
    queries := [("a", { id := "a", query := "qa", results := [], openFlag := false })]
    queryOrder := ["a"] }

/-- Witness for claim C8 at concrete inputs: an unknown id leaves the state
unchanged, a known id extends exactly that entry. -/
theorem webSearchResults_frame_witness :
    step c8State (mkResultsEvent "zz" [c6ResultA]) = c8State ∧
      step c8State (mkResultsEvent "a" [c6ResultA]) =
        { c8State with
          queries := recordSet c8State.queries "a"
            { id := "a", query := "qa", results := [c6ResultA], openFlag := false } } :=
  ⟨(webSearchResults_frame c8State "zz" [c6ResultA]).1 rfl,
    ((webSearchResults_frame c8State "a" [c6ResultA]).2
      { id := "a", query := "qa", results := [], openFlag := false }
      (by decide) rfl).1⟩

/-! ### Claim C9: first-appearance order of the displayed queries -/

/-- The id introduced by a frame, when it is a `web_search_query` frame
with a truthy id. -/
def wireQueryId (e : WireEvent) : Option String :=
  if e.1 = "web_search_query" then payloadQueryId e.2 else none

/-- Keeps the first occurrence of each element, in order. -/
def firstOccurrences (l : List String) : List String :=
  l.foldl (fun acc x => if x ∈ acc then acc else acc ++ [x]) []

/-- Effect of any frame on `queryOrder`. -/
theorem step_queryOrder (s : ResearchState) (name : String)
    (data : Option Json) :
    (step s (name, data)).queryOrder =
      match wireQueryId (name, data) with
      | some id =>
        if id ∈ s.queryOrder then s.queryOrder else s.queryOrder ++ [id]
      | none => s.queryOrder := by
  simp only [step, wireQueryId]
  by_cases h1 : name = "conversation_created"
  · rw [if_pos h1, if_neg (by rw [h1]; decide)]
    exact (onConversationCreated_frame s data).2.2
  · rw [if_neg h1]
    by_cases h2 : name = "lead_thinking"
    · rw [if_pos h2, if_neg (by rw [h2]; decide)]
      exact (onLeadThinking_frame s data).2.2
    · rw [if_neg h2]
      by_cases h3 : name = "lead_answer"
      · rw [if_pos h3, if_neg (by rw [h3]; decide)]
        exact (onLeadAnswer_frame s data).2.2
      · rw [if_neg h3]
        by_cases h4 : name = "web_search_query"
        · rw [if_pos h4, if_pos h4]
          exact (onWebSearchQuery_frame s data).2.2
        · rw [if_neg h4, if_neg h4]
          by_cases h5 : name = "web_search_results"
          · rw [if_pos h5]
            exact (onWebSearchResults_frame s data).2.2
          · rw [if_neg h5]
            by_cases h6 : name = "subagent_completed"
            · rw [if_pos h6]
            · rw [if_neg h6]
              by_cases h7 : name = "final_report"
              · rw [if_pos h7]
                exact onFinalReport_queryOrder s data
              · rw [if_neg h7]

theorem foldl_step_queryOrder (evs : List WireEvent) (s : ResearchState) :
    (evs.foldl step s).queryOrder =
      (evs.filterMap wireQueryId).foldl
        (fun acc x => if x ∈ acc then acc else acc ++ [x]) s.queryOrder := by
  induction evs generalizing s with
  | nil => rfl
  | cons e evs ih =>
    obtain ⟨name, data⟩ := e
    rw [List.foldl_cons, ih (step s (name, data)), step_queryOrder]
    cases h : wireQueryId (name, data) with
    | none => rw [List.filterMap_cons, h]
    | some id => rw [List.filterMap_cons, h, List.foldl_cons]

/-- Claim C9: after any run, `queryOrder` is exactly the list of query ids
in first-appearance order (each id at most once); moreover a repeated
`web_search_query` for a known id keeps the order unchanged while
replacing the entry with a fresh one with empty results. -/
theorem queryOrder_first_appearance (v : String) (s0 : ResearchState)
    (evs : List WireEvent) :
    (processEvents (resetRun s0 v) evs).queryOrder =
      firstOccurrences (evs.filterMap wireQueryId) ∧
      (∀ (s : ResearchState) (id q : String), id ≠ "" →
        recordGet (step s (mkQueryEvent id q)).queries id =
          some { id := id, query := q, results := [], openFlag := false } ∧
        (id ∈ s.queryOrder →
          (step s (mkQueryEvent id q)).queryOrder = s.queryOrder)) := by
  constructor
  · rw [processEvents, foldl_step_queryOrder]
    rfl
  · intro s id q h
    constructor
    · rw [step_query_event s id q h]
      exact recordGet_recordSet_self s.queries id _
    · intro hmem
      rw [step_query_event s id q h]
      simp [hmem]

/-- Witness for claim C9: a run with a repeated query id keeps
first-appearance order, and the repeated frame resets the entry. -/
theorem queryOrder_first_appearance_witness :
    (processEvents (resetRun initialResearchState "go")
        [mkQueryEvent "a" "q1", mkQueryEvent "b" "q2", mkQueryEvent "a" "q3"]).queryOrder =
      firstOccurrences
        ([mkQueryEvent "a" "q1", mkQueryEvent "b" "q2",
          mkQueryEvent "a" "q3"].filterMap wireQueryId) ∧
      recordGet (step c8State (mkQueryEvent "a" "q3")).queries "a" =
        some { id := "a", query := "q3", results := [], openFlag := false } ∧
      (step c8State (mkQueryEvent "a" "q3")).queryOrder = c8State.queryOrder :=
  ⟨(queryOrder_first_appearance "go" initialResearchState
      [mkQueryEvent "a" "q1", mkQueryEvent "b" "q2", mkQueryEvent "a" "q3"]).1,
    ((queryOrder_first_appearance "go" initialResearchState []).2 c8State "a" "q3"
      (by decide)).1,
    ((queryOrder_first_appearance "go" initialResearchState []).2 c8State "a" "q3"
      (by decide)).2 (by decide)⟩

end OpenHay
